import Mathlib

/-!
Verification development for the Qualtran repository.

The repository files available to us are the auto-generated API reference
(markdown extracted from docstrings) and the auto-generated bloq notebooks.
The Python implementation files themselves (`qualtran/resource_counting/_call_graph.py`,
`qualtran/resource_counting/t_counts_from_sigma.py`, `qualtran/_infra/gate_with_registers.py`,
`qualtran/_infra/composite_bloq.py`, `qualtran/testing.py`, the serialization module,
`qualtran/bloqs/gf_arithmetic/gf2_multiplication.py` and
`qualtran/bloqs/rotations/phase_gradient.py`) are not present, so every operation
below is modelled from the specification text of those documents: signatures of
typed registers, composite bloqs as dataflow graphs of bloq instances wired by
connections, the composite-bloq builder, the call-graph counting function, the
T-count aggregation over a sigma dictionary, decomposition, serialization,
tensor contraction, and the classical actions of the GF(2) arithmetic and
phase-gradient bloqs.
-/

namespace Qualtran

/-! ## Registers, signatures and the bloq universe -/

/-- Modelled from the spec: the side of a register (`qualtran.Register.side`).
A THRU register appears on both sides of a bloq, LEFT only as an input,
RIGHT only as an output. -/
inductive Side where
  | left : Side
  | right : Side
  | thru : Side
deriving DecidableEq, Repr

/-- Modelled from the spec: `qualtran.Register`, a named, typed (bitsize),
directional register of a bloq's signature. -/
structure Register where
  name : String
  bitsize : Nat
  side : Side
deriving DecidableEq, Repr

/-- Modelled from the spec: `qualtran.Signature`, the declared list of registers
a bloq exposes. -/
abbrev Signature := List Register

/-- Whether a register appears on the left (input) side of a bloq. -/
def Register.isLeft (r : Register) : Bool := r.side ≠ Side.right

/-- Whether a register appears on the right (output) side of a bloq. -/
def Register.isRight (r : Register) : Bool := r.side ≠ Side.left

/-- The input registers of a signature. -/
def Signature.lefts (s : Signature) : List Register := s.filter Register.isLeft

/-- The output registers of a signature. -/
def Signature.rights (s : Signature) : List Register := s.filter Register.isRight

/-- A signature is well formed when its register names are distinct. -/
def Signature.wf (s : Signature) : Bool := (s.map Register.name).Nodup

/-- Modelled from the spec: the bloq universe (`qualtran.Bloq`).  The claims
need T gates, Clifford gates, rotation bloqs carrying a synthesis T-cost, and
arbitrary atomic bloqs with a declared signature. -/
inductive Bloq where
  | tgate : Bloq
  | clifford (id : Nat) : Bloq
  | rotation (tcost : Nat) : Bloq
  | atomic (name : String) (sig : Signature) : Bloq
deriving DecidableEq, Repr

/-- The signature declared by each bloq of the universe. -/
def bloqSignature : Bloq → Signature
  | Bloq.tgate => [⟨"q", 1, Side.thru⟩]
  | Bloq.clifford _ => [⟨"ctrl", 1, Side.thru⟩, ⟨"target", 1, Side.thru⟩]
  | Bloq.rotation _ => [⟨"q", 1, Side.thru⟩]
  | Bloq.atomic _ sig => sig

/-! ## Composite bloqs: dataflow graphs of bloq instances -/

/-- Modelled from the spec: the node a soquet hangs off — the `LeftDangle` or
`RightDangle` sentinel or a bloq instance index. -/
inductive BloqNode where
  | leftDangle : BloqNode
  | rightDangle : BloqNode
  | inst (i : Nat) : BloqNode
deriving DecidableEq, Repr

/-- Modelled from the spec: `qualtran.Soquet`, one use of a register of one node. -/
structure Soquet where
  node : BloqNode
  regName : String
  bitsize : Nat
deriving DecidableEq, Repr

/-- Modelled from the spec: `qualtran.Connection`, a directed wire between two
soquets of the dataflow graph. -/
structure Connection where
  left : Soquet
  right : Soquet
deriving DecidableEq, Repr

/-- Modelled from the spec: `qualtran.CompositeBloq`, a dataflow graph of bloq
instances wired by typed connections, together with the declared signature. -/
structure CompositeBloq where
  sig : Signature
  binsts : List (Nat × Bloq)
  cxns : List Connection
deriving DecidableEq, Repr

/-- The soquet of register `r` at node `nd`. -/
def soqOf (nd : BloqNode) (r : Register) : Soquet := ⟨nd, r.name, r.bitsize⟩

/-! ## Claim C1: the call-graph counting function -/

/-- Increment the tally of bloq `b` in an association list of counts,
as a `Counter` update does. -/
def incrCount : List (Bloq × Nat) → Bloq → List (Bloq × Nat)
  | [], b => [(b, 1)]
  | (b', n) :: rest, b =>
    if b' = b then (b', n + 1) :: rest else (b', n) :: incrCount rest b

/-- Look a bloq up in an association list of counts; absent bloqs count 0. -/
def lookupCount : List (Bloq × Nat) → Bloq → Nat
  | [], _ => 0
  | (b', n) :: rest, b => if b' = b then n else lookupCount rest b

/-- Modelled from the spec: `qualtran.resource_counting.build_cbloq_call_graph`
(source file `_call_graph.py` is absent).  Per its docstring it counts all the
subbloqs in a composite bloq, tallying each bloq instance's bloq. -/
def build_cbloq_call_graph (cbloq : CompositeBloq) : List (Bloq × Nat) :=
  cbloq.binsts.foldl (fun acc ib => incrCount acc ib.2) []

/-- Modelled from the spec: `CompositeBloq.build_call_graph`, which the API
reference states is underpinned by `build_cbloq_call_graph`. -/
def CompositeBloq.build_call_graph (cbloq : CompositeBloq) : List (Bloq × Nat) :=
  build_cbloq_call_graph cbloq

theorem lookupCount_incrCount (counts : List (Bloq × Nat)) (b b' : Bloq) :
    lookupCount (incrCount counts b) b' =
      lookupCount counts b' + (if b = b' then 1 else 0) := by
  induction counts with
  | nil =>
    by_cases h : b = b' <;> simp [incrCount, lookupCount, h]
  | cons hd tl ih =>
    obtain ⟨c, n⟩ := hd
    by_cases hc : c = b
    · subst hc
      by_cases h : c = b' <;> simp [incrCount, lookupCount, h]
    · by_cases h : c = b'
      · subst h
        simp only [incrCount, if_neg hc, lookupCount, if_pos rfl]
        have : b ≠ c := fun h => hc h.symm
        simp [this]
      · simp [incrCount, if_neg hc, lookupCount, if_neg h, ih]

theorem lookupCount_foldl_incr (l : List (Nat × Bloq)) (init : List (Bloq × Nat)) (b : Bloq) :
    lookupCount (l.foldl (fun acc ib => incrCount acc ib.2) init) b =
      lookupCount init b + (l.map Prod.snd).count b := by
  induction l generalizing init with
  | nil => simp
  | cons hd tl ih =>
    simp only [List.foldl_cons, List.map_cons]
    rw [ih, lookupCount_incrCount]
    rw [List.count_cons]
    by_cases h : hd.2 = b <;> simp [h] <;> omega

theorem mem_keys_incrCount (counts : List (Bloq × Nat)) (b b' : Bloq) :
    b' ∈ (incrCount counts b).map Prod.fst ↔ b' ∈ counts.map Prod.fst ∨ b' = b := by
  induction counts with
  | nil => simp [incrCount, eq_comm]
  | cons hd tl ih =>
    obtain ⟨c, n⟩ := hd
    by_cases hc : c = b
    · subst hc
      simp [incrCount]
      tauto
    · simp [incrCount, if_neg hc, ih]
      tauto

theorem mem_keys_foldl_incr (l : List (Nat × Bloq)) (init : List (Bloq × Nat)) (b : Bloq) :
    b ∈ (l.foldl (fun acc ib => incrCount acc ib.2) init).map Prod.fst ↔
      b ∈ init.map Prod.fst ∨ b ∈ l.map Prod.snd := by
  induction l generalizing init with
  | nil => simp
  | cons hd tl ih =>
    simp only [List.foldl_cons, List.map_cons, List.mem_cons]
    rw [ih, mem_keys_incrCount]
    tauto

/-- C1.  `build_cbloq_call_graph` returns a dictionary counting every sub-bloq
occurring in the composite bloq: its keys are exactly the bloqs of the bloq
instances, each key's count is that bloq's number of occurrences, and it is
the function underpinning `CompositeBloq.build_call_graph`. -/
theorem build_cbloq_call_graph_counts (cbloq : CompositeBloq) (b : Bloq) :
    lookupCount (build_cbloq_call_graph cbloq) b = (cbloq.binsts.map Prod.snd).count b ∧
    (b ∈ (build_cbloq_call_graph cbloq).map Prod.fst ↔ b ∈ cbloq.binsts.map Prod.snd) ∧
    CompositeBloq.build_call_graph cbloq = build_cbloq_call_graph cbloq := by
  refine ⟨?_, ?_, rfl⟩
  · rw [build_cbloq_call_graph, lookupCount_foldl_incr]
    simp [lookupCount]
  · rw [build_cbloq_call_graph, mem_keys_foldl_incr]
    simp

/-! ## Claim C2: T-count aggregation from a sigma dictionary -/

/-- Modelled from the spec: `TComplexity`, the dataclass storing counts of
logical T-gates, Clifford gates and single qubit rotations. -/
structure TComplexity where
  t : Nat
  clifford : Nat
  rotations : Nat
deriving DecidableEq, Repr

/-- The T-cost contributed by a single bloq of the universe when it is a
rotation bloq; non-rotation bloqs contribute nothing here. -/
def rotationTCost : Bloq → Nat
  | Bloq.rotation c => c
  | _ => 0

/-- Whether a bloq of the universe is a rotation bloq. -/
def Bloq.isRotation : Bloq → Bool
  | Bloq.rotation _ => true
  | _ => false

/-- Modelled from the spec: `qualtran.resource_counting.t_counts_from_sigma`
(source file `t_counts_from_sigma.py` is absent).  Per its docstring it
aggregates T-counts from a sigma dictionary by summing T-costs for all
rotation bloqs. -/
def t_counts_from_sigma (sigma : List (Bloq × Nat)) : Nat :=
  sigma.foldl
    (fun acc bn =>
      match bn.1 with
      | Bloq.rotation c => acc + bn.2 * c
      | _ => acc) 0

theorem t_counts_step_eq (acc : Nat) (bn : Bloq × Nat) :
    (match bn.1 with
      | Bloq.rotation c => acc + bn.2 * c
      | _ => acc) = acc + bn.2 * rotationTCost bn.1 := by
  obtain ⟨b, n⟩ := bn
  cases b <;> simp [rotationTCost]

theorem t_counts_foldl (sigma : List (Bloq × Nat)) (acc : Nat) :
    sigma.foldl
      (fun acc bn =>
        match bn.1 with
        | Bloq.rotation c => acc + bn.2 * c
        | _ => acc) acc =
    acc + (sigma.map (fun bn => bn.2 * rotationTCost bn.1)).sum := by
  induction sigma generalizing acc with
  | nil => simp
  | cons hd tl ih =>
    rw [List.foldl_cons, ih, t_counts_step_eq]
    simp only [List.map_cons, List.sum_cons]
    omega

/-- C2.  `t_counts_from_sigma` returns the aggregate T-count obtained by
summing, over every entry of sigma, the entry's count times the T-cost of its
bloq when that bloq is a rotation bloq, and entries whose bloq is not a
rotation bloq contribute nothing to the aggregate. -/
theorem t_counts_from_sigma_eq_sum (sigma : List (Bloq × Nat)) :
    t_counts_from_sigma sigma =
      (sigma.map (fun bn => bn.2 * rotationTCost bn.1)).sum ∧
    ((∀ bn ∈ sigma, bn.1.isRotation = false) → t_counts_from_sigma sigma = 0) := by
  have hsum : t_counts_from_sigma sigma =
      (sigma.map (fun bn => bn.2 * rotationTCost bn.1)).sum := by
    rw [t_counts_from_sigma, t_counts_foldl]
    omega
  refine ⟨hsum, fun hnone => ?_⟩
  rw [hsum]
  rw [List.sum_eq_zero]
  intro x hx
  simp only [List.mem_map] at hx
  obtain ⟨bn, hbn, rfl⟩ := hx
  have := hnone bn hbn
  cases h : bn.1 <;> simp [rotationTCost] <;> rw [h] at this <;> simp [Bloq.isRotation] at this

/-! ## Validity assertions for composite bloqs

These model the checks of `qualtran.testing` (`testing.py` is absent): the
composite-bloq validity assertions performed by `assert_valid_cbloq`. -/

/-- Topological order on dataflow nodes: `LeftDangle` precedes every bloq
instance, instances are ordered by creation index, and `RightDangle` follows
everything, so connections respecting it form a directed acyclic graph. -/
def nodeLtB : BloqNode → BloqNode → Bool
  | BloqNode.leftDangle, BloqNode.rightDangle => true
  | BloqNode.leftDangle, BloqNode.inst _ => true
  | BloqNode.inst i, BloqNode.inst j => i < j
  | BloqNode.inst _, BloqNode.rightDangle => true
  | _, _ => false

/-- All soquets produced in a dataflow graph: the `LeftDangle` soquets of the
declared left registers and, for each bloq instance, the soquets of its right
registers. -/
def producedList (sig : Signature) (binsts : List (Nat × Bloq)) : List Soquet :=
  sig.lefts.map (soqOf BloqNode.leftDangle) ++
    binsts.flatMap (fun ib => (bloqSignature ib.2).rights.map (soqOf (BloqNode.inst ib.1)))

/-- All consumption slots at bloq instances: for each instance, the soquets of
its left registers. -/
def instSlots (binsts : List (Nat × Bloq)) : List Soquet :=
  binsts.flatMap (fun ib => (bloqSignature ib.2).lefts.map (soqOf (BloqNode.inst ib.1)))

/-- All consumption slots of a finished dataflow graph: the instance slots plus
the `RightDangle` soquets of the declared right registers. -/
def finalSlots (sig : Signature) (binsts : List (Nat × Bloq)) : List Soquet :=
  instSlots binsts ++ sig.rights.map (soqOf BloqNode.rightDangle)

/-- Modelled from the spec: `assert_connections_compatible` — all connections
are between compatible registers (equal bitsize standing for the quantum data
type, so this also covers `assert_connections_consistent_qdtypes`). -/
def assert_connections_compatible (cb : CompositeBloq) : Prop :=
  ∀ c ∈ cb.cxns, c.left.bitsize = c.right.bitsize

/-- The connections respect the topological node order, so the dataflow graph
is acyclic. -/
def assert_dag (cb : CompositeBloq) : Prop :=
  ∀ c ∈ cb.cxns, nodeLtB c.left.node c.right.node = true

/-- Modelled from the spec: `assert_soquets_belong_to_registers` — every
soquet used by a connection is a declared register of its node. -/
def assert_soquets_belong_to_registers (cb : CompositeBloq) : Prop :=
  (∀ c ∈ cb.cxns, c.left ∈ producedList cb.sig cb.binsts) ∧
  (∀ c ∈ cb.cxns, c.right ∈ finalSlots cb.sig cb.binsts)

/-- Modelled from the spec: `assert_soquets_used_exactly_once` — every
produced soquet is the left end of exactly as many connections as it is
produced, and every consumption slot is the right end of exactly as many
connections as it is declared. -/
def assert_soquets_used_exactly_once (cb : CompositeBloq) : Prop :=
  (∀ s ∈ producedList cb.sig cb.binsts,
    (cb.cxns.map Connection.left).count s = (producedList cb.sig cb.binsts).count s) ∧
  (∀ s ∈ finalSlots cb.sig cb.binsts,
    (cb.cxns.map Connection.right).count s = (finalSlots cb.sig cb.binsts).count s)

/-- Modelled from the spec: `assert_registers_match_dangling` — connections to
`LeftDangle` and `RightDangle` match the declared registers of the signature,
and each declared dangling register is wired. -/
def assert_registers_match_dangling (cb : CompositeBloq) : Prop :=
  (∀ c ∈ cb.cxns, c.left.node = BloqNode.leftDangle →
    c.left ∈ cb.sig.lefts.map (soqOf BloqNode.leftDangle)) ∧
  (∀ c ∈ cb.cxns, c.right.node = BloqNode.rightDangle →
    c.right ∈ cb.sig.rights.map (soqOf BloqNode.rightDangle)) ∧
  (∀ r ∈ cb.sig.lefts, soqOf BloqNode.leftDangle r ∈ cb.cxns.map Connection.left) ∧
  (∀ r ∈ cb.sig.rights, soqOf BloqNode.rightDangle r ∈ cb.cxns.map Connection.right)

/-- Modelled from the spec: `assert_valid_cbloq` — perform all composite-bloq
validity assertions. -/
def assert_valid_cbloq (cb : CompositeBloq) : Prop :=
  assert_soquets_belong_to_registers cb ∧
  assert_soquets_used_exactly_once cb ∧
  assert_registers_match_dangling cb ∧
  assert_connections_compatible cb ∧
  assert_dag cb

/-! ## The composite-bloq builder

Modelled from the spec: `qualtran.BloqBuilder` (`composite_bloq.py` is
absent).  The builder starts from a signature, hands out the `LeftDangle`
soquets of the left registers, wires bloqs one at a time — each new bloq
instance consumes a choice of currently available soquets for its left
registers and produces fresh soquets for its right registers — and is
finalized by wiring the remaining soquets to `RightDangle` in the order of the
declared right registers. -/

structure BuilderState where
  sig : Signature
  nextI : Nat
  binsts : List (Nat × Bloq)
  cxns : List Connection
  avail : List Soquet
deriving DecidableEq, Repr

/-- Start building a composite bloq with the given (well-formed) signature. -/
def initBuilder (sig : Signature) : Option BuilderState :=
  if sig.wf then
    some ⟨sig, 0, [], [], sig.lefts.map (soqOf BloqNode.leftDangle)⟩
  else none

/-- The builder accepts a new bloq exactly when the bloq's signature is well
formed and the chosen input soquets are distinct, currently available, and
match the bloq's left registers in number and bitsize. -/
def addOk (st : BuilderState) (b : Bloq) (inputs : List Soquet) : Prop :=
  (bloqSignature b).wf = true ∧
  inputs.length = (Signature.lefts (bloqSignature b)).length ∧
  inputs.Nodup ∧
  (∀ s ∈ inputs, s ∈ st.avail) ∧
  (∀ p ∈ inputs.zip (Signature.lefts (bloqSignature b)), p.1.bitsize = p.2.bitsize)

instance (st : BuilderState) (b : Bloq) (inputs : List Soquet) :
    Decidable (addOk st b inputs) := by
  unfold addOk
  infer_instance

/-- Add one bloq instance to the builder, consuming the chosen input soquets
and producing the new instance's right-register soquets. -/
def addBloq (st : BuilderState) (b : Bloq) (inputs : List Soquet) : Option BuilderState :=
  if addOk st b inputs then
    some ⟨st.sig, st.nextI + 1,
      st.binsts ++ [(st.nextI, b)],
      st.cxns ++ List.zipWith (fun s r => Connection.mk s (soqOf (BloqNode.inst st.nextI) r))
        inputs (Signature.lefts (bloqSignature b)),
      (st.avail.filter (fun s => decide (s ∉ inputs))) ++
        (Signature.rights (bloqSignature b)).map (soqOf (BloqNode.inst st.nextI))⟩
  else none

/-- The builder can be finalized exactly when the chosen output soquets are a
permutation of the remaining available soquets matching the declared right
registers in number and bitsize. -/
def finalizeOk (st : BuilderState) (outputs : List Soquet) : Prop :=
  outputs.length = (Signature.rights st.sig).length ∧
  outputs.Nodup ∧
  (∀ s ∈ outputs, s ∈ st.avail) ∧
  (∀ s ∈ st.avail, s ∈ outputs) ∧
  (∀ p ∈ outputs.zip (Signature.rights st.sig), p.1.bitsize = p.2.bitsize)

instance (st : BuilderState) (outputs : List Soquet) :
    Decidable (finalizeOk st outputs) := by
  unfold finalizeOk
  infer_instance

/-- Finish building: wire the chosen output soquets to `RightDangle` in the
order of the declared right registers. -/
def finalize (st : BuilderState) (outputs : List Soquet) : Option CompositeBloq :=
  if finalizeOk st outputs then
    some ⟨st.sig, st.binsts,
      st.cxns ++ List.zipWith (fun s r => Connection.mk s (soqOf BloqNode.rightDangle r))
        outputs (Signature.rights st.sig)⟩
  else none

/-- One wiring step of a builder program. -/
inductive Instr where
  | add (b : Bloq) (inputs : List Soquet) : Instr
deriving DecidableEq, Repr

/-- A bloq author's decomposition, written against the builder: the sequence
of bloqs to wire and the final output soquets. -/
structure BuilderProgram where
  instrs : List Instr
  outputs : List Soquet
deriving DecidableEq, Repr

/-- Run the wiring steps of a program through the builder. -/
def runInstrs : BuilderState → List Instr → Option BuilderState
  | st, [] => some st
  | st, Instr.add b ins :: rest =>
    match addBloq st b ins with
    | some st' => runInstrs st' rest
    | none => none

/-- Run a whole builder program from a signature, producing a composite bloq
when every step is accepted. -/
def runProgram (sig : Signature) (p : BuilderProgram) : Option CompositeBloq :=
  (initBuilder sig).bind (fun st0 =>
    (runInstrs st0 p.instrs).bind (fun st => finalize st p.outputs))

/-! ### List helper lemmas for the builder invariant -/

theorem count_filter_not_mem (l inputs : List Soquet) (s : Soquet) :
    (l.filter (fun t => decide (t ∉ inputs))).count s =
      if s ∈ inputs then 0 else l.count s := by
  induction l with
  | nil => simp
  | cons hd tl ih =>
    by_cases hmem : hd ∈ inputs
    · rw [List.filter_cons_of_neg (by simpa using hmem)]
      by_cases hs : s ∈ inputs
      · simpa [hs] using ih
      · have hne : s ≠ hd := fun h => hs (h ▸ hmem)
        rw [List.count_cons_of_ne hne]
        simpa [hs] using ih
    · rw [List.filter_cons_of_pos (by simpa using hmem)]
      by_cases hs : s ∈ inputs
      · have hne : s ≠ hd := fun h => hmem (h ▸ hs)
        rw [List.count_cons_of_ne hne]
        simpa [hs] using ih
      · rw [List.count_cons, List.count_cons]
        simpa [hs] using ih

theorem zipWith_mk_lefts (nd : BloqNode) :
    ∀ (ss : List Soquet) (rs : List Register), ss.length = rs.length →
      (List.zipWith (fun s r => Connection.mk s (soqOf nd r)) ss rs).map Connection.left = ss
  | [], [], _ => rfl
  | [], _ :: _, h => by simp at h
  | _ :: _, [], h => by simp at h
  | s :: ss, r :: rs, h => by
    have hlen : ss.length = rs.length := by simpa using h
    simp [zipWith_mk_lefts nd ss rs hlen]

theorem zipWith_mk_rights (nd : BloqNode) :
    ∀ (ss : List Soquet) (rs : List Register), ss.length = rs.length →
      (List.zipWith (fun s r => Connection.mk s (soqOf nd r)) ss rs).map Connection.right =
        rs.map (soqOf nd)
  | [], [], _ => rfl
  | [], _ :: _, h => by simp at h
  | _ :: _, [], h => by simp at h
  | s :: ss, r :: rs, h => by
    have hlen : ss.length = rs.length := by simpa using h
    simp [zipWith_mk_rights nd ss rs hlen]

theorem zipWith_eq_map_zip (f : Soquet → Register → Connection) :
    ∀ (ss : List Soquet) (rs : List Register),
      List.zipWith f ss rs = (ss.zip rs).map (fun p => f p.1 p.2)
  | [], [] => rfl
  | [], _ :: _ => rfl
  | _ :: _, [] => rfl
  | s :: ss, r :: rs => by simp [zipWith_eq_map_zip f ss rs]

theorem nodup_soq_map (sig : Signature) (p : Register → Bool) (nd : BloqNode)
    (hwf : Signature.wf sig = true) : ((sig.filter p).map (soqOf nd)).Nodup := by
  have hnames : ((sig.filter p).map Register.name).Nodup := by
    have hsub : List.Sublist ((sig.filter p).map Register.name) (sig.map Register.name) :=
      List.Sublist.map Register.name (List.filter_sublist sig)
    have : (sig.map Register.name).Nodup := by simpa [Signature.wf] using hwf
    exact this.sublist hsub
  have hinj := List.inj_on_of_nodup_map hnames
  exact List.Nodup.map_on
    (fun _x hx _y hy hxy => hinj hx hy (congrArg Soquet.regName hxy))
    (List.Nodup.of_map Register.name hnames)

theorem mem_instPart_node {binsts : List (Nat × Bloq)} {s : Soquet}
    (side : Signature → List Register)
    (h : s ∈ binsts.flatMap (fun ib => (side (bloqSignature ib.2)).map (soqOf (BloqNode.inst ib.1)))) :
    ∃ ib ∈ binsts, s.node = BloqNode.inst ib.1 := by
  simp only [List.mem_flatMap, List.mem_map] at h
  obtain ⟨ib, hib, r, _, rfl⟩ := h
  exact ⟨ib, hib, rfl⟩

theorem mem_producedList_node {sig : Signature} {binsts : List (Nat × Bloq)} {s : Soquet}
    (h : s ∈ producedList sig binsts) :
    (s.node = BloqNode.leftDangle ∧ s ∈ sig.lefts.map (soqOf BloqNode.leftDangle)) ∨
      ∃ ib ∈ binsts, s.node = BloqNode.inst ib.1 := by
  rw [producedList, List.mem_append] at h
  rcases h with h | h
  · left
    refine ⟨?_, h⟩
    simp only [List.mem_map] at h
    obtain ⟨r, _, rfl⟩ := h
    rfl
  · right
    exact mem_instPart_node Signature.rights h

/-! ### The builder invariant and its preservation -/

/-- The inductive invariant of the composite-bloq builder: every produced
soquet is accounted for exactly once between the available pool and the left
ends of the connections; the right ends of the connections fill exactly the
declared instance slots; connections are bitsize-compatible and respect the
topological node order; instance indices are below the fresh-index counter;
and the available pool has no duplicates. -/
def builderInv (st : BuilderState) : Prop :=
  (∀ s : Soquet, (st.cxns.map Connection.left).count s + st.avail.count s =
      (producedList st.sig st.binsts).count s) ∧
  (∀ s : Soquet, (st.cxns.map Connection.right).count s = (instSlots st.binsts).count s) ∧
  (∀ c ∈ st.cxns, c.left.bitsize = c.right.bitsize) ∧
  (∀ c ∈ st.cxns, nodeLtB c.left.node c.right.node = true) ∧
  (∀ ib ∈ st.binsts, ib.1 < st.nextI) ∧
  st.avail.Nodup

theorem initBuilder_inv {sig : Signature} {st0 : BuilderState}
    (h : initBuilder sig = some st0) : builderInv st0 ∧ st0.sig = sig := by
  rw [initBuilder] at h
  split at h
  · rename_i hwf
    cases h
    refine ⟨⟨?_, ?_, ?_, ?_, ?_, ?_⟩, rfl⟩
    · intro s
      simp [producedList, instSlots]
    · intro s
      simp [instSlots]
    · intro c hc
      simp at hc
    · intro c hc
      simp at hc
    · intro ib hib
      simp at hib
    · have := nodup_soq_map sig Register.isLeft BloqNode.leftDangle hwf
      simpa [Signature.lefts] using this
  · cases h

theorem avail_mem_produced {st : BuilderState} (hInv : builderInv st) {s : Soquet}
    (h : s ∈ st.avail) : s ∈ producedList st.sig st.binsts := by
  have hc : 0 < st.avail.count s := List.count_pos_iff.2 h
  have := hInv.1 s
  have : 0 < (producedList st.sig st.binsts).count s := by omega
  exact List.count_pos_iff.1 this

theorem producedList_append_one (sig : Signature) (bs : List (Nat × Bloq)) (n : Nat) (b : Bloq) :
    producedList sig (bs ++ [(n, b)]) =
      producedList sig bs ++ (Signature.rights (bloqSignature b)).map (soqOf (BloqNode.inst n)) := by
  simp [producedList, List.flatMap_append]

theorem instSlots_append_one (bs : List (Nat × Bloq)) (n : Nat) (b : Bloq) :
    instSlots (bs ++ [(n, b)]) =
      instSlots bs ++ (Signature.lefts (bloqSignature b)).map (soqOf (BloqNode.inst n)) := by
  simp [instSlots, List.flatMap_append]

theorem addBloq_inv {st : BuilderState} {b : Bloq} {inputs : List Soquet} {st' : BuilderState}
    (hInv : builderInv st) (h : addBloq st b inputs = some st') :
    builderInv st' ∧ st'.sig = st.sig := by
  rw [addBloq] at h
  split at h
  case isFalse => cases h
  case isTrue hok =>
  cases h
  unfold addOk at hok
  obtain ⟨hwf, hlen, hnodup, hsub, hbits⟩ := hok
  have hprod : ∀ {s : Soquet}, s ∈ st.avail → s ∈ producedList st.sig st.binsts :=
    fun hs => avail_mem_produced hInv hs
  obtain ⟨hout, hin, hcompat, hdag, hfresh, havail⟩ := hInv
  have hLnewC := zipWith_mk_lefts (BloqNode.inst st.nextI) inputs
    (Signature.lefts (bloqSignature b)) hlen
  have hRnewC := zipWith_mk_rights (BloqNode.inst st.nextI) inputs
    (Signature.lefts (bloqSignature b)) hlen
  have hAvailNode : ∀ s ∈ st.avail,
      s.node = BloqNode.leftDangle ∨ ∃ i, s.node = BloqNode.inst i ∧ i < st.nextI := by
    intro s hs
    rcases mem_producedList_node (hprod hs) with ⟨hnd, _⟩ | ⟨ib, hib, hnd⟩
    · exact Or.inl hnd
    · exact Or.inr ⟨ib.1, hnd, hfresh ib hib⟩
  constructor
  · unfold builderInv
    refine ⟨?_, ?_, ?_, ?_, ?_, ?_⟩
    · intro s
      dsimp only
      rw [List.map_append, hLnewC, List.count_append, List.count_append,
        count_filter_not_mem, producedList_append_one, List.count_append]
      by_cases hs : s ∈ inputs
      · have h1 : inputs.count s = 1 := List.count_eq_one_of_mem hnodup hs
        have h2 : st.avail.count s = 1 := List.count_eq_one_of_mem havail (hsub s hs)
        have := hout s
        simp only [if_pos hs]
        omega
      · have h1 : inputs.count s = 0 := List.count_eq_zero.2 hs
        have := hout s
        simp only [if_neg hs]
        omega
    · intro s
      dsimp only
      rw [List.map_append, hRnewC, List.count_append, instSlots_append_one, List.count_append,
        hin s]
    · intro c hc
      dsimp only at hc
      rcases List.mem_append.1 hc with hc | hc
      · exact hcompat c hc
      · rw [zipWith_eq_map_zip] at hc
        simp only [List.mem_map] at hc
        obtain ⟨p, hp, rfl⟩ := hc
        exact hbits p hp
    · intro c hc
      dsimp only at hc
      rcases List.mem_append.1 hc with hc | hc
      · exact hdag c hc
      · rw [zipWith_eq_map_zip] at hc
        simp only [List.mem_map] at hc
        obtain ⟨p, hp, rfl⟩ := hc
        have hmem : p.1 ∈ inputs := (List.of_mem_zip hp).1
        rcases hAvailNode p.1 (hsub p.1 hmem) with hnd | ⟨i, hnd, hi⟩
        · simp [soqOf, hnd, nodeLtB]
        · simp [soqOf, hnd, nodeLtB, hi]
    · intro ib hib
      dsimp only at hib ⊢
      rcases List.mem_append.1 hib with hib | hib
      · exact Nat.lt_succ_of_lt (hfresh ib hib)
      · simp only [List.mem_singleton] at hib
        subst hib
        exact Nat.lt_succ_self _
    · dsimp only
      refine List.Nodup.append (havail.filter _) ?_ ?_
      · have := nodup_soq_map (bloqSignature b) Register.isRight (BloqNode.inst st.nextI) hwf
        simpa [Signature.rights] using this
      · intro s hs1 hs2
        have hs1' : s ∈ st.avail := List.mem_of_mem_filter hs1
        simp only [List.mem_map] at hs2
        obtain ⟨r, _, rfl⟩ := hs2
        rcases hAvailNode _ hs1' with hnd | ⟨i, hnd, hi⟩
        · simp [soqOf] at hnd
        · simp only [soqOf] at hnd
          cases hnd
          omega
  · rfl

theorem runInstrs_inv :
    ∀ (instrs : List Instr) {st st' : BuilderState}, builderInv st →
      runInstrs st instrs = some st' → builderInv st' ∧ st'.sig = st.sig
  | [], st, st', hInv, h => by
    cases h
    exact ⟨hInv, rfl⟩
  | Instr.add b ins :: rest, st, st', hInv, h => by
    rw [runInstrs] at h
    cases hadd : addBloq st b ins with
    | none => rw [hadd] at h; cases h
    | some st1 =>
      rw [hadd] at h
      obtain ⟨hInv1, hsig1⟩ := addBloq_inv hInv hadd
      obtain ⟨hInv', hsig'⟩ := runInstrs_inv rest hInv1 h
      exact ⟨hInv', hsig'.trans hsig1⟩

theorem count_eq_of_nodup_mutual {l1 l2 : List Soquet} (h1 : l1.Nodup) (h2 : l2.Nodup)
    (h12 : ∀ s ∈ l1, s ∈ l2) (h21 : ∀ s ∈ l2, s ∈ l1) (s : Soquet) :
    l1.count s = l2.count s := by
  by_cases hs : s ∈ l1
  · rw [List.count_eq_one_of_mem h1 hs, List.count_eq_one_of_mem h2 (h12 s hs)]
  · have hs2 : s ∉ l2 := fun h => hs (h21 s h)
    rw [List.count_eq_zero.2 hs, List.count_eq_zero.2 hs2]

theorem finalize_valid {st : BuilderState} {outputs : List Soquet} {cb : CompositeBloq}
    (hInv : builderInv st) (h : finalize st outputs = some cb) :
    assert_valid_cbloq cb ∧ cb.sig = st.sig := by
  rw [finalize] at h
  split at h
  case isFalse => cases h
  case isTrue hok =>
  cases h
  unfold finalizeOk at hok
  obtain ⟨hlen, hnodup, hso, hos, hbits⟩ := hok
  have hprod : ∀ {s : Soquet}, s ∈ st.avail → s ∈ producedList st.sig st.binsts :=
    fun hs => avail_mem_produced hInv hs
  obtain ⟨hout, hin, hcompat, hdag, hfresh, havail⟩ := hInv
  have hAvailNode : ∀ s ∈ st.avail,
      s.node = BloqNode.leftDangle ∨ ∃ i, s.node = BloqNode.inst i := by
    intro s hs
    rcases mem_producedList_node (hprod hs) with ⟨hnd, _⟩ | ⟨ib, _, hnd⟩
    · exact Or.inl hnd
    · exact Or.inr ⟨ib.1, hnd⟩
  have hcnt : ∀ s, outputs.count s = st.avail.count s :=
    count_eq_of_nodup_mutual hnodup havail hso hos
  have hLnew := zipWith_mk_lefts BloqNode.rightDangle outputs (Signature.rights st.sig) hlen
  have hRnew := zipWith_mk_rights BloqNode.rightDangle outputs (Signature.rights st.sig) hlen
  have hOutFull : ∀ s : Soquet,
      ((st.cxns ++ List.zipWith (fun s r => Connection.mk s (soqOf BloqNode.rightDangle r))
        outputs (Signature.rights st.sig)).map Connection.left).count s =
      (producedList st.sig st.binsts).count s := by
    intro s
    rw [List.map_append, hLnew, List.count_append, hcnt s]
    have := hout s
    omega
  have hInFull : ∀ s : Soquet,
      ((st.cxns ++ List.zipWith (fun s r => Connection.mk s (soqOf BloqNode.rightDangle r))
        outputs (Signature.rights st.sig)).map Connection.right).count s =
      (finalSlots st.sig st.binsts).count s := by
    intro s
    rw [List.map_append, hRnew, List.count_append, hin s, finalSlots, List.count_append]
  refine ⟨⟨⟨?_, ?_⟩, ⟨?_, ?_⟩, ⟨?_, ?_, ?_, ?_⟩, ?_, ?_⟩, rfl⟩
  · -- every connection's left end is a produced soquet
    intro c hc
    have hm := List.mem_map_of_mem Connection.left hc
    have : 0 < (producedList st.sig st.binsts).count c.left := by
      rw [← hOutFull c.left]
      exact List.count_pos_iff.2 hm
    exact List.count_pos_iff.1 this
  · -- every connection's right end is a declared slot
    intro c hc
    have hm := List.mem_map_of_mem Connection.right hc
    have : 0 < (finalSlots st.sig st.binsts).count c.right := by
      rw [← hInFull c.right]
      exact List.count_pos_iff.2 hm
    exact List.count_pos_iff.1 this
  · -- produced soquets are used exactly once as left ends
    intro s _
    exact hOutFull s
  · -- slots are used exactly once as right ends
    intro s _
    exact hInFull s
  · -- left-dangling soquets come from the declared left registers
    intro c hc hnd
    have hm := List.mem_map_of_mem Connection.left hc
    have hmem : c.left ∈ producedList st.sig st.binsts := by
      have : 0 < (producedList st.sig st.binsts).count c.left := by
        rw [← hOutFull c.left]
        exact List.count_pos_iff.2 hm
      exact List.count_pos_iff.1 this
    rcases mem_producedList_node hmem with ⟨_, hm2⟩ | ⟨ib, _, hnd2⟩
    · exact hm2
    · rw [hnd] at hnd2
      cases hnd2
  · -- right-dangling soquets come from the declared right registers
    intro c hc hnd
    have hm := List.mem_map_of_mem Connection.right hc
    have hmem : c.right ∈ finalSlots st.sig st.binsts := by
      have : 0 < (finalSlots st.sig st.binsts).count c.right := by
        rw [← hInFull c.right]
        exact List.count_pos_iff.2 hm
      exact List.count_pos_iff.1 this
    rcases List.mem_append.1 hmem with hm2 | hm2
    · obtain ⟨ib, _, hnd2⟩ := mem_instPart_node Signature.lefts hm2
      rw [hnd] at hnd2
      cases hnd2
    · exact hm2
  · -- every declared left register is wired
    intro r hr
    have hmem : soqOf BloqNode.leftDangle r ∈ producedList st.sig st.binsts := by
      rw [producedList, List.mem_append]
      exact Or.inl (List.mem_map_of_mem _ hr)
    have : 0 < ((st.cxns ++ List.zipWith (fun s r => Connection.mk s (soqOf BloqNode.rightDangle r))
        outputs (Signature.rights st.sig)).map Connection.left).count
        (soqOf BloqNode.leftDangle r) := by
      rw [hOutFull]
      exact List.count_pos_iff.2 hmem
    exact List.count_pos_iff.1 this
  · -- every declared right register is wired
    intro r hr
    have hmem : soqOf BloqNode.rightDangle r ∈ finalSlots st.sig st.binsts := by
      rw [finalSlots, List.mem_append]
      exact Or.inr (List.mem_map_of_mem _ hr)
    have : 0 < ((st.cxns ++ List.zipWith (fun s r => Connection.mk s (soqOf BloqNode.rightDangle r))
        outputs (Signature.rights st.sig)).map Connection.right).count
        (soqOf BloqNode.rightDangle r) := by
      rw [hInFull]
      exact List.count_pos_iff.2 hmem
    exact List.count_pos_iff.1 this
  · -- bitsize compatibility
    intro c hc
    rcases List.mem_append.1 hc with hc | hc
    · exact hcompat c hc
    · rw [zipWith_eq_map_zip] at hc
      simp only [List.mem_map] at hc
      obtain ⟨p, hp, rfl⟩ := hc
      exact hbits p hp
  · -- acyclicity
    intro c hc
    rcases List.mem_append.1 hc with hc | hc
    · exact hdag c hc
    · rw [zipWith_eq_map_zip] at hc
      simp only [List.mem_map] at hc
      obtain ⟨p, hp, rfl⟩ := hc
      have hmem : p.1 ∈ outputs := (List.of_mem_zip hp).1
      rcases hAvailNode p.1 (hso p.1 hmem) with hnd | ⟨i, hnd⟩
      · simp [soqOf, hnd, nodeLtB]
      · simp [soqOf, hnd, nodeLtB]

theorem runProgram_spec {sig : Signature} {p : BuilderProgram} {cb : CompositeBloq}
    (h : runProgram sig p = some cb) : assert_valid_cbloq cb ∧ cb.sig = sig := by
  rw [runProgram] at h
  cases hinit : initBuilder sig with
  | none => rw [hinit, Option.none_bind] at h; cases h
  | some st0 =>
    rw [hinit, Option.some_bind] at h
    obtain ⟨hInv0, hsig0⟩ := initBuilder_inv hinit
    cases hrun : runInstrs st0 p.instrs with
    | none => rw [hrun, Option.none_bind] at h; cases h
    | some st =>
      rw [hrun, Option.some_bind] at h
      obtain ⟨hInv, hsig⟩ := runInstrs_inv p.instrs hInv0 hrun
      obtain ⟨hvalid, hsig2⟩ := finalize_valid hInv h
      exact ⟨hvalid, by rw [hsig2, hsig, hsig0]⟩

/-! ## Bloq decomposition (`decompose_bloq`) -/

/-- Modelled from the spec: a bloq author's definition — the declared signature
and the two optional decomposition backends of `GateWithRegisters`:
`build_composite_bloq` (bloq-style, via the builder) and
`decompose_from_registers` (cirq-style); `none` models the method raising
`DecomposeNotImplementedError`.  Either style results in wiring bloqs through
a builder started from the parent signature, so both are builder programs. -/
structure BloqDef where
  sig : Signature
  build_composite_bloq : Option BuilderProgram
  decompose_from_registers : Option BuilderProgram
deriving DecidableEq, Repr

/-- The errors `decompose_bloq` can raise: `DecomposeNotImplementedError` when
no decomposition is defined, or a distinct error when a provided decomposition
does not build a valid composite bloq. -/
inductive DecomposeError where
  | decomposeNotImplemented : DecomposeError
  | invalidDecomposition : DecomposeError
deriving DecidableEq, Repr

/-- The decomposition backend `decompose_bloq` uses: `build_composite_bloq`
first, falling back to `decompose_from_registers` when the former raises
`DecomposeNotImplementedError`. -/
def chosenDecomposition (bd : BloqDef) : Option BuilderProgram :=
  bd.build_composite_bloq.orElse (fun _ => bd.decompose_from_registers)

/-- Modelled from the spec: `decompose_bloq()` — decompose this bloq into its
constituent parts contained in a `CompositeBloq`, running the author's chosen
decomposition through a builder started from the bloq's own signature, and
raising `DecomposeNotImplementedError` when no decomposition is defined. -/
def decompose_bloq (bd : BloqDef) : Except DecomposeError CompositeBloq :=
  match chosenDecomposition bd with
  | none => Except.error DecomposeError.decomposeNotImplemented
  | some p =>
    match runProgram bd.sig p with
    | some cb => Except.ok cb
    | none => Except.error DecomposeError.invalidDecomposition

theorem chosenDecomposition_eq_none (bd : BloqDef) :
    chosenDecomposition bd = none ↔
      bd.build_composite_bloq = none ∧ bd.decompose_from_registers = none := by
  cases h : bd.build_composite_bloq <;> simp [chosenDecomposition, Option.orElse, h]

/-! ### Decidability of the validity assertions -/

instance (cb : CompositeBloq) : Decidable (assert_connections_compatible cb) := by
  unfold assert_connections_compatible
  infer_instance

instance (cb : CompositeBloq) : Decidable (assert_dag cb) := by
  unfold assert_dag
  infer_instance

instance (cb : CompositeBloq) : Decidable (assert_soquets_belong_to_registers cb) := by
  unfold assert_soquets_belong_to_registers
  infer_instance

instance (cb : CompositeBloq) : Decidable (assert_soquets_used_exactly_once cb) := by
  unfold assert_soquets_used_exactly_once
  infer_instance

instance (cb : CompositeBloq) : Decidable (assert_registers_match_dangling cb) := by
  unfold assert_registers_match_dangling
  infer_instance

instance (cb : CompositeBloq) : Decidable (assert_valid_cbloq cb) := by
  unfold assert_valid_cbloq
  infer_instance

/-! ### Concrete example bloq definitions used by the witnesses -/

/-- A one-qubit THRU signature. -/
def exSig : Signature := [⟨"q", 1, Side.thru⟩]

/-- A builder program wiring a single T gate across the signature. -/
def exProg : BuilderProgram :=
  ⟨[Instr.add Bloq.tgate [⟨BloqNode.leftDangle, "q", 1⟩]], [⟨BloqNode.inst 0, "q", 1⟩]⟩

/-- The composite bloq the example program builds. -/
def exCbloq : CompositeBloq :=
  ⟨exSig, [(0, Bloq.tgate)],
    [⟨⟨BloqNode.leftDangle, "q", 1⟩, ⟨BloqNode.inst 0, "q", 1⟩⟩,
     ⟨⟨BloqNode.inst 0, "q", 1⟩, ⟨BloqNode.rightDangle, "q", 1⟩⟩]⟩

/-- A bloq definition providing the example program as `build_composite_bloq`. -/
def exBloqDef : BloqDef := ⟨exSig, some exProg, none⟩

/-- A bloq definition whose provided `build_composite_bloq` is ill-formed: its
output wiring does not match its (empty) signature. -/
def exBadBloqDef : BloqDef := ⟨[], some ⟨[], [⟨BloqNode.leftDangle, "x", 1⟩]⟩, none⟩

/-! ### Claims C3, C4, C5 -/

/-- C3 counterexample.  A bloq definition that provides `build_composite_bloq`
(so at least one of the two backends is provided) on which `decompose_bloq`
does not return a `CompositeBloq`: the provided decomposition is ill-formed,
so a different error is raised. -/
theorem decompose_bloq_provided_can_fail :
    exBadBloqDef.build_composite_bloq.isSome = true ∧
    decompose_bloq exBadBloqDef = Except.error DecomposeError.invalidDecomposition :=
  ⟨rfl, rfl⟩

/-- C3 (amended).  `decompose_bloq` raises `DecomposeNotImplementedError` if
and only if both `build_composite_bloq` and `decompose_from_registers` raise
`DecomposeNotImplementedError`; when at least one of the two is provided and
the provided decomposition builds successfully, `decompose_bloq` returns the
resulting `CompositeBloq` (an ill-formed provided decomposition raises a
different error instead). -/
theorem decompose_bloq_error_iff (bd : BloqDef) :
    (decompose_bloq bd = Except.error DecomposeError.decomposeNotImplemented ↔
      bd.build_composite_bloq = none ∧ bd.decompose_from_registers = none) ∧
    (∀ p, chosenDecomposition bd = some p →
      ∀ cb, runProgram bd.sig p = some cb → decompose_bloq bd = Except.ok cb) := by
  constructor
  · constructor
    · intro h
      rw [← chosenDecomposition_eq_none]
      unfold decompose_bloq at h
      split at h
      · assumption
      · split at h <;> simp at h
    · intro hnone
      have hch : chosenDecomposition bd = none := (chosenDecomposition_eq_none bd).2 hnone
      unfold decompose_bloq
      rw [hch]
  · intro p hp cb hcb
    unfold decompose_bloq
    rw [hp]
    simp only [hcb]

theorem decompose_bloq_error_iff_witness :
    chosenDecomposition exBloqDef = some exProg ∧
    runProgram exBloqDef.sig exProg = some exCbloq ∧
    decompose_bloq exBloqDef = Except.ok exCbloq := by
  refine ⟨rfl, by decide, ?_⟩
  exact (decompose_bloq_error_iff exBloqDef).2 exProg rfl exCbloq (by decide)

/-- C4.  Every composite bloq produced by the composite-bloq builder passes
all composite-bloq validity assertions: every soquet belongs to a declared
register, every soquet is used exactly once, all connections are between
compatible registers with consistent data types, connections to `LeftDangle`
and `RightDangle` match the declared signature, and the dataflow graph is
acyclic. -/
theorem builder_produces_valid_cbloq (sig : Signature) (p : BuilderProgram)
    (cb : CompositeBloq) (h : runProgram sig p = some cb) : assert_valid_cbloq cb :=
  (runProgram_spec h).1

theorem builder_produces_valid_cbloq_witness :
    runProgram exSig exProg = some exCbloq ∧ assert_valid_cbloq exCbloq :=
  ⟨by decide, builder_produces_valid_cbloq exSig exProg exCbloq (by decide)⟩

/-- C5.  For every bloq that has a decomposition, the registers of the
`CompositeBloq` returned by `decompose_bloq()` match the signature of the
original (parent) bloq: decomposition never changes a bloq's declared
signature (`assert_registers_match_parent`). -/
theorem decompose_bloq_registers_match_parent (bd : BloqDef) (cb : CompositeBloq)
    (h : decompose_bloq bd = Except.ok cb) : cb.sig = bd.sig := by
  unfold decompose_bloq at h
  split at h
  · cases h
  · rename_i p hp
    split at h
    · rename_i cb2 hcb2
      cases h
      exact (runProgram_spec hcb2).2
    · cases h

theorem decompose_bloq_registers_match_parent_witness :
    decompose_bloq exBloqDef = Except.ok exCbloq ∧ exCbloq.sig = exBloqDef.sig := by
  have h : decompose_bloq exBloqDef = Except.ok exCbloq := by
    unfold decompose_bloq
    simp only [show chosenDecomposition exBloqDef = some exProg from rfl]
    simp only [show runProgram exBloqDef.sig exProg = some exCbloq from by decide]
  exact ⟨h, decompose_bloq_registers_match_parent exBloqDef exCbloq h⟩

/-! ## Claim C6: serialization

Modelled from the spec: the qualtran serialization module (absent from the
sources) turns bloqs and composite bloqs into protobuf messages and back;
`assert_bloq_example_serializes` checks that deserializing the serialized
form yields a bloq equal to the original.  Protobuf messages are modelled as
trees of integers, strings and repeated fields. -/

inductive ProtoVal where
  | pnat (n : Nat) : ProtoVal
  | pstr (s : String) : ProtoVal
  | plist (items : List ProtoVal) : ProtoVal

def encodeSide : Side → Nat
  | Side.left => 0
  | Side.right => 1
  | Side.thru => 2

def decodeSide : Nat → Option Side
  | 0 => some Side.left
  | 1 => some Side.right
  | 2 => some Side.thru
  | _ => none

def encodeRegister (r : Register) : ProtoVal :=
  ProtoVal.plist [ProtoVal.pstr r.name, ProtoVal.pnat r.bitsize, ProtoVal.pnat (encodeSide r.side)]

def decodeRegister : ProtoVal → Option Register
  | ProtoVal.plist [ProtoVal.pstr n, ProtoVal.pnat bs, ProtoVal.pnat sd] =>
    (decodeSide sd).map (fun side => ⟨n, bs, side⟩)
  | _ => none

def encodeBloq : Bloq → ProtoVal
  | Bloq.tgate => ProtoVal.plist [ProtoVal.pnat 0]
  | Bloq.clifford id => ProtoVal.plist [ProtoVal.pnat 1, ProtoVal.pnat id]
  | Bloq.rotation c => ProtoVal.plist [ProtoVal.pnat 2, ProtoVal.pnat c]
  | Bloq.atomic nm sig =>
    ProtoVal.plist [ProtoVal.pnat 3, ProtoVal.pstr nm, ProtoVal.plist (sig.map encodeRegister)]

/-- Decode a repeated field elementwise, failing when any element fails. -/
def decodeList {α : Type} (g : ProtoVal → Option α) : List ProtoVal → Option (List α)
  | [] => some []
  | x :: xs =>
    match g x, decodeList g xs with
    | some a, some as => some (a :: as)
    | _, _ => none

def decodeBloq : ProtoVal → Option Bloq
  | ProtoVal.plist [ProtoVal.pnat 0] => some Bloq.tgate
  | ProtoVal.plist [ProtoVal.pnat 1, ProtoVal.pnat id] => some (Bloq.clifford id)
  | ProtoVal.plist [ProtoVal.pnat 2, ProtoVal.pnat c] => some (Bloq.rotation c)
  | ProtoVal.plist [ProtoVal.pnat 3, ProtoVal.pstr nm, ProtoVal.plist rs] =>
    (decodeList decodeRegister rs).map (Bloq.atomic nm)
  | _ => none

def encodeNode : BloqNode → ProtoVal
  | BloqNode.leftDangle => ProtoVal.pnat 0
  | BloqNode.rightDangle => ProtoVal.pnat 1
  | BloqNode.inst i => ProtoVal.pnat (i + 2)

def decodeNode : ProtoVal → Option BloqNode
  | ProtoVal.pnat 0 => some BloqNode.leftDangle
  | ProtoVal.pnat 1 => some BloqNode.rightDangle
  | ProtoVal.pnat (n + 2) => some (BloqNode.inst n)
  | _ => none

def encodeSoquet (s : Soquet) : ProtoVal :=
  ProtoVal.plist [encodeNode s.node, ProtoVal.pstr s.regName, ProtoVal.pnat s.bitsize]

def decodeSoquet : ProtoVal → Option Soquet
  | ProtoVal.plist [nd, ProtoVal.pstr nm, ProtoVal.pnat bs] =>
    (decodeNode nd).map (fun node => ⟨node, nm, bs⟩)
  | _ => none

def encodeConnection (c : Connection) : ProtoVal :=
  ProtoVal.plist [encodeSoquet c.left, encodeSoquet c.right]

def decodeConnection : ProtoVal → Option Connection
  | ProtoVal.plist [l, r] =>
    match decodeSoquet l, decodeSoquet r with
    | some a, some b => some ⟨a, b⟩
    | _, _ => none
  | _ => none

def encodeBinst (ib : Nat × Bloq) : ProtoVal :=
  ProtoVal.plist [ProtoVal.pnat ib.1, encodeBloq ib.2]

def decodeBinst : ProtoVal → Option (Nat × Bloq)
  | ProtoVal.plist [ProtoVal.pnat i, pb] => (decodeBloq pb).map (fun b => (i, b))
  | _ => none

def encodeCompositeBloq (cb : CompositeBloq) : ProtoVal :=
  ProtoVal.plist [ProtoVal.plist (cb.sig.map encodeRegister),
    ProtoVal.plist (cb.binsts.map encodeBinst),
    ProtoVal.plist (cb.cxns.map encodeConnection)]

def decodeCompositeBloq : ProtoVal → Option CompositeBloq
  | ProtoVal.plist [ProtoVal.plist ps, ProtoVal.plist pbs, ProtoVal.plist pcs] =>
    match decodeList decodeRegister ps, decodeList decodeBinst pbs, decodeList decodeConnection pcs with
    | some sig, some binsts, some cxns => some ⟨sig, binsts, cxns⟩
    | _, _, _ => none
  | _ => none

theorem decodeList_map_roundtrip {α : Type} (f : α → ProtoVal) (g : ProtoVal → Option α) :
    ∀ l : List α, (∀ x ∈ l, g (f x) = some x) → decodeList g (l.map f) = some l
  | [], _ => rfl
  | x :: xs, h => by
    have hx : g (f x) = some x := h x (List.mem_cons_self x xs)
    have hxs : decodeList g (xs.map f) = some xs :=
      decodeList_map_roundtrip f g xs (fun y hy => h y (List.mem_cons_of_mem x hy))
    simp [decodeList, hx, hxs]

theorem decodeSide_encodeSide (sd : Side) : decodeSide (encodeSide sd) = some sd := by
  cases sd <;> rfl

theorem decodeRegister_encodeRegister (r : Register) :
    decodeRegister (encodeRegister r) = some r := by
  obtain ⟨n, bs, sd⟩ := r
  simp [encodeRegister, decodeRegister, decodeSide_encodeSide]

theorem decodeBloq_encodeBloq (b : Bloq) : decodeBloq (encodeBloq b) = some b := by
  cases b with
  | tgate => rfl
  | clifford id => rfl
  | rotation c => rfl
  | atomic nm sig =>
    simp [encodeBloq, decodeBloq,
      decodeList_map_roundtrip encodeRegister decodeRegister sig
        (fun r _ => decodeRegister_encodeRegister r)]

theorem decodeNode_encodeNode (nd : BloqNode) : decodeNode (encodeNode nd) = some nd := by
  cases nd <;> rfl

theorem decodeSoquet_encodeSoquet (s : Soquet) : decodeSoquet (encodeSoquet s) = some s := by
  obtain ⟨nd, nm, bs⟩ := s
  simp [encodeSoquet, decodeSoquet, decodeNode_encodeNode]

theorem decodeConnection_encodeConnection (c : Connection) :
    decodeConnection (encodeConnection c) = some c := by
  obtain ⟨l, r⟩ := c
  simp [encodeConnection, decodeConnection, decodeSoquet_encodeSoquet]

theorem decodeBinst_encodeBinst (ib : Nat × Bloq) :
    decodeBinst (encodeBinst ib) = some ib := by
  obtain ⟨i, b⟩ := ib
  simp [encodeBinst, decodeBinst, decodeBloq_encodeBloq]

/-- C6.  Serialization followed by deserialization is a round trip: for every
bloq and every composite bloq, deserializing the serialized form yields the
original back (the consistency checked by `assert_bloq_example_serializes`). -/
theorem serialization_round_trip :
    (∀ b : Bloq, decodeBloq (encodeBloq b) = some b) ∧
    (∀ cb : CompositeBloq, decodeCompositeBloq (encodeCompositeBloq cb) = some cb) := by
  refine ⟨decodeBloq_encodeBloq, ?_⟩
  intro cb
  obtain ⟨sig, binsts, cxns⟩ := cb
  simp [encodeCompositeBloq, decodeCompositeBloq,
    decodeList_map_roundtrip encodeRegister decodeRegister sig
      (fun r _ => decodeRegister_encodeRegister r),
    decodeList_map_roundtrip encodeBinst decodeBinst binsts
      (fun ib _ => decodeBinst_encodeBinst ib),
    decodeList_map_roundtrip encodeConnection decodeConnection cxns
      (fun c _ => decodeConnection_encodeConnection c)]

/-! ## Claim C7: tensor contraction

Modelled from the spec: `Bloq.tensor_contract()` and `my_tensors`.  Per the
`GateWithRegisters.my_tensors` documentation, `my_tensors` returns tensors
corresponding to the unitary of the bloq, and calls to `tensor_contract()`
first decompose and flatten the bloq before converting to a tensor network,
so the bloq's own tensors may not be used.  The model is a universe of
single-wire bloqs with integer 2×2 matrices as tensors: composing two bloqs
in sequence gives a composite bloq whose decomposition is the pair and whose
custom tensor is the composed unitary. -/

inductive TBloq where
  | xgate : TBloq
  | zgate : TBloq
  | idgate : TBloq
  | composite (a b : TBloq) : TBloq
deriving DecidableEq, Repr

/-- The bloq's own tensors (`my_tensors`): the unitary matrix it represents. -/
def myTensors : TBloq → Matrix (Fin 2) (Fin 2) ℤ
  | TBloq.xgate => !![0, 1; 1, 0]
  | TBloq.zgate => !![1, 0; 0, -1]
  | TBloq.idgate => 1
  | TBloq.composite a b => myTensors b * myTensors a

/-- The bloq's decomposition: a composite bloq decomposes into its two parts
applied in sequence; atomic gates define no decomposition. -/
def decomposeT : TBloq → Option (List TBloq)
  | TBloq.composite a b => some [a, b]
  | _ => none

/-- Whether the bloq defines a decomposition. -/
def hasDecompositionT (b : TBloq) : Bool := (decomposeT b).isSome

/-- Recursively decompose and flatten a bloq to its atomic leaves, in circuit
order. -/
def flattenT : TBloq → List TBloq
  | TBloq.composite a b => flattenT a ++ flattenT b
  | b => [b]

/-- Contract a flat tensor network: multiply the tensors in circuit order. -/
def contractNetwork (ts : List TBloq) : Matrix (Fin 2) (Fin 2) ℤ :=
  ts.foldl (fun m t => myTensors t * m) 1

/-- Modelled from the spec: `tensor_contract()` — by default first decompose
and flatten the bloq, then contract the resulting flat tensor network. -/
def tensor_contract (b : TBloq) : Matrix (Fin 2) (Fin 2) ℤ :=
  contractNetwork (flattenT b)

theorem contractNetwork_foldl (ts : List TBloq) (m0 : Matrix (Fin 2) (Fin 2) ℤ) :
    ts.foldl (fun m t => myTensors t * m) m0 = contractNetwork ts * m0 := by
  induction ts generalizing m0 with
  | nil => simp [contractNetwork]
  | cons hd tl ih =>
    rw [contractNetwork, List.foldl_cons, List.foldl_cons, ih, ih (myTensors hd * 1)]
    simp [Matrix.mul_assoc]

theorem contractNetwork_append (l1 l2 : List TBloq) :
    contractNetwork (l1 ++ l2) = contractNetwork l2 * contractNetwork l1 := by
  rw [contractNetwork, List.foldl_append, contractNetwork_foldl]
  rfl

theorem contractNetwork_flattenT (b : TBloq) : contractNetwork (flattenT b) = myTensors b := by
  induction b with
  | xgate => simp [flattenT, contractNetwork]
  | zgate => simp [flattenT, contractNetwork]
  | idgate => simp [flattenT, contractNetwork]
  | composite a b iha ihb =>
    rw [flattenT, contractNetwork_append, iha, ihb, myTensors]

/-- C7.  For every bloq that defines both a decomposition and custom
`my_tensors` tensors (every bloq of the model defines its tensors),
`tensor_contract()` by default contracts the flat-decomposed tensor network —
so the custom tensors may not be used — and that contraction represents the
same unitary as the bloq's own `my_tensors` tensors. -/
theorem tensor_contract_flattens_and_agrees (b : TBloq) (_h : hasDecompositionT b = true) :
    tensor_contract b = contractNetwork (flattenT b) ∧ tensor_contract b = myTensors b :=
  ⟨rfl, contractNetwork_flattenT b⟩

theorem tensor_contract_flattens_and_agrees_witness :
    hasDecompositionT (TBloq.composite TBloq.xgate TBloq.zgate) = true ∧
    (tensor_contract (TBloq.composite TBloq.xgate TBloq.zgate) =
        contractNetwork (flattenT (TBloq.composite TBloq.xgate TBloq.zgate)) ∧
      tensor_contract (TBloq.composite TBloq.xgate TBloq.zgate) =
        myTensors (TBloq.composite TBloq.xgate TBloq.zgate)) :=
  ⟨rfl, tensor_contract_flattens_and_agrees (TBloq.composite TBloq.xgate TBloq.zgate) rfl⟩

/-! ## GF(2) polynomial arithmetic on bitmasks

Binary polynomials are represented as naturals: bit `i` is the coefficient of
`x^i`.  Addition is bitwise xor; `clmul` is carry-less (polynomial)
multiplication, computed as the xor of the shifted second operand over the set
bits of the first. -/

/-- Carry-less multiplication accumulated over the first `w` bits of `a`. -/
def clmulW : Nat → Nat → Nat → Nat
  | 0, _, _ => 0
  | w + 1, a, b => clmulW w a b ^^^ (if a.testBit w then b <<< w else 0)

/-- Carry-less (GF(2) polynomial) multiplication: since `a < 2 ^ a`, the first
`a` bits of `a` suffice. -/
def clmul (a b : Nat) : Nat := clmulW a a b

theorem clmulW_zero_of_low_bits {w a b : Nat} (h : ∀ i < w, a.testBit i = false) :
    clmulW w a b = 0 := by
  induction w with
  | zero => rfl
  | succ w ih =>
    rw [clmulW, ih (fun i hi => h i (Nat.lt_succ_of_lt hi)), h w (Nat.lt_succ_self w)]
    simp

theorem clmulW_succ_stable {w a b : Nat} (h : a < 2 ^ w) :
    clmulW (w + 1) a b = clmulW w a b := by
  rw [clmulW, Nat.testBit_eq_false_of_lt h]
  simp

theorem clmulW_stable {a b : Nat} : ∀ {w w' : Nat}, a < 2 ^ w → w ≤ w' →
    clmulW w' a b = clmulW w a b := by
  intro w w' ha hw
  induction w' with
  | zero =>
    cases Nat.le_zero.1 hw
    rfl
  | succ w' ih =>
    rcases Nat.lt_or_ge w (w' + 1) with hlt | hge
    · have hww : w ≤ w' := Nat.lt_succ_iff.1 hlt
      have ha' : a < 2 ^ w' := Nat.lt_of_lt_of_le ha (Nat.pow_le_pow_right (by omega) hww)
      rw [clmulW_succ_stable ha', ih hww]
    · have : w = w' + 1 := Nat.le_antisymm hw hge
      rw [this]

theorem clmul_eq_clmulW {a b w : Nat} (ha : a < 2 ^ w) : clmul a b = clmulW w a b := by
  rw [clmul]
  rcases Nat.le_total w a with h | h
  · exact clmulW_stable ha h
  · exact (clmulW_stable (Nat.lt_two_pow a) h).symm

theorem clmul_zero_left (b : Nat) : clmul 0 b = 0 := rfl

theorem two_mul_xor (x y : Nat) : 2 * (x ^^^ y) = 2 * x ^^^ 2 * y := by
  have h := Nat.xor_bit false x false y
  simpa [Nat.bit_val] using h.symm

theorem xor_rotate (b c d : Nat) : b ^^^ (c ^^^ d) = c ^^^ (b ^^^ d) := by
  rw [← Nat.xor_assoc, Nat.xor_comm b c, Nat.xor_assoc]

theorem xor_quad (a b c d : Nat) : (a ^^^ b) ^^^ (c ^^^ d) = (a ^^^ c) ^^^ (b ^^^ d) := by
  rw [Nat.xor_assoc, Nat.xor_assoc, xor_rotate b c d]

theorem xor_lt_two_pow {a b n : Nat} (ha : a < 2 ^ n) (hb : b < 2 ^ n) : a ^^^ b < 2 ^ n := by
  refine Nat.lt_pow_two_of_testBit _ (fun i hi => ?_)
  rw [Nat.testBit_xor, Nat.testBit_eq_false_of_lt, Nat.testBit_eq_false_of_lt]
  · rfl
  · exact Nat.lt_of_lt_of_le hb (Nat.pow_le_pow_right (by omega) hi)
  · exact Nat.lt_of_lt_of_le ha (Nat.pow_le_pow_right (by omega) hi)

theorem bool_if_xor (p q : Bool) (t : Nat) :
    (if (p ^^ q) = true then t else 0) =
      (if p = true then t else 0) ^^^ (if q = true then t else 0) := by
  cases p <;> cases q <;> simp

theorem clmulW_xor_left (w : Nat) : ∀ (a a' b : Nat),
    clmulW w (a ^^^ a') b = clmulW w a b ^^^ clmulW w a' b := by
  induction w with
  | zero => intro a a' b; simp [clmulW]
  | succ w ih =>
    intro a a' b
    rw [clmulW, clmulW, clmulW, ih, Nat.testBit_xor, bool_if_xor, xor_quad]

theorem clmul_xor_left (a a' b : Nat) : clmul (a ^^^ a') b = clmul a b ^^^ clmul a' b := by
  have w := a + a' + 1
  have ha : a < 2 ^ (a + a' + 1) :=
    Nat.lt_of_lt_of_le (Nat.lt_two_pow a) (Nat.pow_le_pow_right (by omega) (by omega))
  have ha' : a' < 2 ^ (a + a' + 1) :=
    Nat.lt_of_lt_of_le (Nat.lt_two_pow a') (Nat.pow_le_pow_right (by omega) (by omega))
  have hxor : a ^^^ a' < 2 ^ (a + a' + 1) := xor_lt_two_pow ha ha'
  rw [clmul_eq_clmulW hxor, clmul_eq_clmulW ha, clmul_eq_clmulW ha', clmulW_xor_left]

theorem clmul_pow2_left (k b : Nat) : clmul (2 ^ k) b = b <<< k := by
  have hk : (2 : Nat) ^ k < 2 ^ (k + 1) := Nat.pow_lt_pow_right (by omega) (Nat.lt_succ_self k)
  rw [clmul_eq_clmulW hk, clmulW, Nat.testBit_two_pow_self,
    clmulW_zero_of_low_bits (fun i hi => Nat.testBit_two_pow_of_ne (Nat.ne_of_gt hi))]
  simp

theorem clmul_one_left (b : Nat) : clmul 1 b = b := by
  have := clmul_pow2_left 0 b
  simpa using this

theorem clmulW_two_mul (b : Nat) : ∀ (w a : Nat), clmulW (w + 1) (2 * a) b = 2 * clmulW w a b
  | 0, a => by
    have h0 : (2 * a).testBit 0 = false := by
      simp [Nat.testBit_zero, Nat.mul_mod_right]
    simp [clmulW, h0]
  | w + 1, a => by
    have hbit : (2 * a).testBit (w + 1) = a.testBit w := by
      rw [Nat.testBit_add_one, Nat.mul_div_cancel_left a (by omega)]
    rw [clmulW, clmulW_two_mul b w a, hbit]
    conv_rhs => rw [clmulW]
    rw [two_mul_xor]
    congr 1
    cases h : a.testBit w <;> simp [Nat.shiftLeft_succ]

theorem clmul_two_mul_left (a b : Nat) : clmul (2 * a) b = 2 * clmul a b := by
  have h2a : 2 * a < 2 ^ (a + 1) := by
    have := Nat.lt_two_pow a
    rw [Nat.pow_succ]
    omega
  rw [clmul_eq_clmulW h2a, clmulW_two_mul, clmul]

theorem xor_mul_two_pow_add {s x y : Nat} (hy : y < 2 ^ s) : (2 ^ s * x) ^^^ y = 2 ^ s * x + y := by
  induction s generalizing y with
  | zero =>
    interval_cases y
    simp
  | succ s ih =>
    have hy2 : y / 2 < 2 ^ s := by
      rw [Nat.pow_succ] at hy
      omega
    have htn : (decide (y % 2 = 1)).toNat = y % 2 := by
      rcases Nat.mod_two_eq_zero_or_one y with h | h <;> simp [h]
    have hA : 2 ^ (s + 1) * x = Nat.bit false (2 ^ s * x) := by
      rw [Nat.bit_val]
      simp only [Bool.toNat_false, Nat.add_zero, Nat.pow_succ]
      ring
    have hybit : y = Nat.bit (decide (y % 2 = 1)) (y / 2) := by
      rw [Nat.bit_val, htn]
      omega
    calc 2 ^ (s + 1) * x ^^^ y
        = Nat.bit false (2 ^ s * x) ^^^ Nat.bit (decide (y % 2 = 1)) (y / 2) := by
          rw [← hA, ← hybit]
      _ = Nat.bit (bne false (decide (y % 2 = 1))) ((2 ^ s * x) ^^^ (y / 2)) :=
          Nat.xor_bit false (2 ^ s * x) (decide (y % 2 = 1)) (y / 2)
      _ = Nat.bit (decide (y % 2 = 1)) (2 ^ s * x + y / 2) := by
          rw [ih hy2]
          simp
      _ = 2 ^ (s + 1) * x + y := by
          rw [Nat.bit_val, htn]
          have hdm : 2 * (y / 2) + y % 2 = y := Nat.div_add_mod y 2
          have hps : 2 ^ (s + 1) * x = 2 * (2 ^ s * x) := by
            rw [Nat.pow_succ]
            ring
          rw [hps]
          omega

theorem xor_high_add {s r y : Nat} (hr : r < 2 ^ s) (hy : y < 2 ^ s) :
    (2 ^ s + r) ^^^ y = 2 ^ s + (r ^^^ y) := by
  have h1 : 2 ^ s + r = (2 ^ s * 1) ^^^ r := by
    rw [xor_mul_two_pow_add hr]
    ring_nf
  rw [h1, Nat.xor_assoc, xor_mul_two_pow_add (xor_lt_two_pow hr hy)]
  ring_nf

theorem xor_window_lt {s a b : Nat} (ha1 : 2 ^ s ≤ a) (ha2 : a < 2 ^ (s + 1))
    (hb1 : 2 ^ s ≤ b) (hb2 : b < 2 ^ (s + 1)) : a ^^^ b < 2 ^ s := by
  have hra : a - 2 ^ s < 2 ^ s := by
    rw [Nat.pow_succ] at ha2
    omega
  have hrb : b - 2 ^ s < 2 ^ s := by
    rw [Nat.pow_succ] at hb2
    omega
  have hxa : a = (2 ^ s * 1) ^^^ (a - 2 ^ s) := by
    rw [xor_mul_two_pow_add hra]
    omega
  have hxb : b = (2 ^ s * 1) ^^^ (b - 2 ^ s) := by
    rw [xor_mul_two_pow_add hrb]
    omega
  rw [hxa, hxb, xor_quad, Nat.xor_self, Nat.zero_xor]
  exact xor_lt_two_pow hra hrb

/-! ## Claim C8: MultiplyPolyByOnePlusXk -/

/-- Modelled from the spec: the classical action of `MultiplyPolyByOnePlusXk`
(`gf2_multiplication.py` is absent).  The construction accumulates the binary
polynomial product into the target in two passes — the plain product and the
product shifted by `x^k` (the two sets of CNOT-driven accumulations of
Algorithm 2 of the reference, with the order of the first set reversed) — so
the classical action on basis states is two xor-accumulations of `f·g`. -/
def multiplyPolyByOnePlusXk (n k f g h : Nat) : Nat × Nat × Nat :=
  (f, g, (h ^^^ clmul f g) ^^^ (clmul f g <<< k))

/-- C8.  For every degree `n` and every `k ≤ n + 1` (in particular also
`k < n`), `MultiplyPolyByOnePlusXk` maps `|f⟩|g⟩|h⟩` to
`|f⟩|g⟩|h ⊕ (1 + x^k)·f·g⟩`, the product and sum taken in GF(2) polynomial
arithmetic (xor and carry-less multiplication). -/
theorem multiplyPolyByOnePlusXk_correct (n k f g h : Nat) (hk : k ≤ n + 1)
    (hf : f < 2 ^ n) (hg : g < 2 ^ n) :
    multiplyPolyByOnePlusXk n k f g h =
      (f, g, h ^^^ clmul (1 ^^^ (1 <<< k)) (clmul f g)) := by
  have hone : clmul (1 ^^^ (1 <<< k)) (clmul f g) = clmul f g ^^^ (clmul f g <<< k) := by
    rw [clmul_xor_left, clmul_one_left, Nat.one_shiftLeft, clmul_pow2_left]
  rw [multiplyPolyByOnePlusXk, hone, Nat.xor_assoc]

theorem multiplyPolyByOnePlusXk_correct_witness :
    2 ≤ 3 + 1 ∧ 5 < 2 ^ 3 ∧ 3 < 2 ^ 3 ∧
    multiplyPolyByOnePlusXk 3 2 5 3 9 =
      (5, 3, 9 ^^^ clmul (1 ^^^ (1 <<< 2)) (clmul 5 3)) :=
  ⟨by decide, by decide, by decide,
    multiplyPolyByOnePlusXk_correct 3 2 5 3 9 (by decide) (by decide) (by decide)⟩

/-! ## Claim C9: AddIntoPhaseGrad -/

/-- Modelled from the spec: the classical action of `AddIntoPhaseGrad`
(`phase_gradient.py` is absent).  Per its documentation it maps
`|x⟩|phase_grad⟩` to `|x⟩|phase_grad + x⟩`: the input is right-shifted by
`right_shift`, added to or subtracted from (per `sign`) the phase-gradient
register, modulo `2 ^ phase_bitsize`. -/
def addIntoPhaseGrad (x_bitsize phase_bitsize right_shift : Nat) (sign : Bool)
    (x phase_grad : Nat) : Nat × Nat :=
  let xs := (x >>> right_shift) % 2 ^ phase_bitsize
  if sign then (x, (phase_grad + (2 ^ phase_bitsize - xs)) % 2 ^ phase_bitsize)
  else (x, (phase_grad + xs) % 2 ^ phase_bitsize)

/-- Modelled from the spec: the decomposition of `AddIntoPhaseGrad` uses
`phase_bitsize - 2` Toffoli gates, per the bloq's documentation. -/
def addIntoPhaseGradToffoliCount (phase_bitsize : Nat) : Nat := phase_bitsize - 2

/-- C9.  `AddIntoPhaseGrad` maps `|x⟩|phase_grad⟩` to `|x⟩|phase_grad + x⟩`
with the addition taken modulo `2 ^ phase_bitsize` after the specified right
shift (and modular subtraction when the sign says subtract), the input
register is unchanged, the output stays in range, and the decomposition uses
`phase_bitsize - 2` Toffoli gates. -/
theorem addIntoPhaseGrad_correct (xb pb rs x pg : Nat)
    (hx : x < 2 ^ xb) (hpg : pg < 2 ^ pb) :
    addIntoPhaseGrad xb pb rs false x pg = (x, (pg + x >>> rs) % 2 ^ pb) ∧
    (addIntoPhaseGrad xb pb rs false x pg).2 < 2 ^ pb ∧
    addIntoPhaseGrad xb pb rs true x pg =
      (x, (pg + (2 ^ pb - (x >>> rs) % 2 ^ pb)) % 2 ^ pb) ∧
    (addIntoPhaseGrad xb pb rs true x pg).2 < 2 ^ pb ∧
    addIntoPhaseGradToffoliCount pb = pb - 2 := by
  have hpos : 0 < 2 ^ pb := Nat.pos_pow_of_pos pb (by omega)
  refine ⟨?_, ?_, rfl, ?_, rfl⟩
  · simp [addIntoPhaseGrad, Nat.add_mod_mod]
  · simp only [addIntoPhaseGrad]
    simp only [Bool.false_eq_true, if_false]
    exact Nat.mod_lt _ hpos
  · simp only [addIntoPhaseGrad]
    simp only [if_true]
    exact Nat.mod_lt _ hpos

theorem addIntoPhaseGrad_correct_witness :
    (9 : Nat) < 2 ^ 4 ∧ (11 : Nat) < 2 ^ 4 ∧
    addIntoPhaseGrad 4 4 0 false 9 11 = (9, (11 + 9 >>> 0) % 2 ^ 4) :=
  ⟨by decide, by decide, (addIntoPhaseGrad_correct 4 4 0 9 11 (by decide) (by decide)).1⟩

/-! ## Claim C10: GF2Multiplication

The construction described in the `GF2Multiplication` documentation: the full
carry-less product of the two inputs splits into a low half `d = L·b` (the
lower-triangular Toffoli step) and a high half `e = U·b` (the
upper-triangular Toffoli step); the reduction matrix `Q`, whose `i`-th column
holds the coefficients of `x^(m+i) mod P(x)`, folds the high half back below
degree `m` using only CNOTs; the result is `d + Q·e`. -/

/-- `x^j mod P(x)` for a degree-`m` irreducible `P`, computed by repeated
multiply-by-`x` and conditional reduction. -/
def xPowMod (m P : Nat) : Nat → Nat
  | 0 => 1
  | j + 1 =>
    let v := 2 * xPowMod m P j
    if 2 ^ m ≤ v then v ^^^ P else v

/-- The reduction `Q·e` accumulated over the first `t` bits of the high half
`e`: bit `t` of `e` contributes `x^(m+t) mod P(x)`. -/
def qRedW (m P e : Nat) : Nat → Nat
  | 0 => 0
  | t + 1 => qRedW m P e t ^^^ (if e.testBit t then xPowMod m P (m + t) else 0)

/-- The full reduction `Q·e` (since `e < 2 ^ e`, `e` bits suffice). -/
def qReduce (m P e : Nat) : Nat := qRedW m P e e

/-- The result register computed by the documented construction:
`d + Q·e` where `d` and `e` are the low and high halves of the carry-less
product. -/
def gf2ConstructionProduct (m P a b : Nat) : Nat :=
  clmul a b % 2 ^ m ^^^ qReduce m P (clmul a b / 2 ^ m)

/-- Modelled from the spec: the classical action of `GF2Multiplication`
(`gf2_multiplication.py` is absent).  `x` and `y` are THRU registers; with
`plus_equal_prod = False` the RIGHT register `result` ends as the product,
with `plus_equal_prod = True` the THRU register `result` accumulates it. -/
def GF2Multiplication (m P : Nat) (plus_equal_prod : Bool) (x y result : Nat) :
    Nat × Nat × Nat :=
  if plus_equal_prod then (x, y, result ^^^ gf2ConstructionProduct m P x y)
  else (x, y, gf2ConstructionProduct m P x y)

/-- Modelled from the spec: what "the product `x * y` in GF(2^m)" means —
the canonical representative below `2 ^ m` of the carry-less product modulo
the irreducible polynomial `P`. -/
def IsGF2Product (m P a b r : Nat) : Prop :=
  r < 2 ^ m ∧ ∃ q, r ^^^ clmul q P = clmul a b

theorem xPowMod_lt {m P : Nat} (hm : 0 < m) (hP1 : 2 ^ m ≤ P) (hP2 : P < 2 ^ (m + 1)) :
    ∀ j, xPowMod m P j < 2 ^ m
  | 0 => Nat.one_lt_two_pow (by omega)
  | j + 1 => by
    have ih := xPowMod_lt hm hP1 hP2 j
    rw [xPowMod]
    have hv : 2 * xPowMod m P j < 2 ^ (m + 1) := by
      rw [Nat.pow_succ]
      omega
    split
    · rename_i hge
      exact xor_window_lt hge hv hP1 hP2
    · omega

theorem xPowMod_congr {m P : Nat} :
    ∀ j, ∃ q, xPowMod m P j ^^^ clmul q P = 2 ^ j
  | 0 => ⟨0, by simp [xPowMod, clmul_zero_left]⟩
  | j + 1 => by
    obtain ⟨q, hq⟩ := xPowMod_congr (m := m) (P := P) j
    have hdouble : 2 * xPowMod m P j ^^^ clmul (2 * q) P = 2 ^ (j + 1) := by
      rw [clmul_two_mul_left, ← two_mul_xor, hq, Nat.pow_succ]
      ring
    rw [xPowMod]
    split
    · refine ⟨2 * q ^^^ 1, ?_⟩
      rw [clmul_xor_left, clmul_one_left]
      rw [show (2 * xPowMod m P j ^^^ P) ^^^ (clmul (2 * q) P ^^^ P) =
        (2 * xPowMod m P j ^^^ clmul (2 * q) P) ^^^ (P ^^^ P) from xor_quad _ _ _ _]
      rw [Nat.xor_self, Nat.xor_zero, hdouble]
    · exact ⟨2 * q, hdouble⟩

theorem qRedW_lt {m P e : Nat} (hm : 0 < m) (hP1 : 2 ^ m ≤ P) (hP2 : P < 2 ^ (m + 1)) :
    ∀ t, qRedW m P e t < 2 ^ m
  | 0 => Nat.pos_pow_of_pos m (by omega)
  | t + 1 => by
    have ih := qRedW_lt (e := e) hm hP1 hP2 t
    rw [qRedW]
    refine xor_lt_two_pow ih ?_
    split
    · exact xPowMod_lt hm hP1 hP2 (m + t)
    · exact Nat.pos_pow_of_pos m (by omega)

theorem qRedW_congr {m P e : Nat} :
    ∀ w, ∃ q, qRedW m P e w ^^^ clmul q P = (e % 2 ^ w) * 2 ^ m
  | 0 => ⟨0, by simp [qRedW, clmul_zero_left, Nat.mod_one]⟩
  | w + 1 => by
    obtain ⟨q, hq⟩ := qRedW_congr (m := m) (P := P) (e := e) w
    have hmod : e % 2 ^ (w + 1) = e % 2 ^ w + 2 ^ w * (e / 2 ^ w % 2) := Nat.mod_pow_succ
    have hlow : e % 2 ^ w < 2 ^ w := Nat.mod_lt e (Nat.pos_pow_of_pos w (by omega))
    rw [qRedW]
    cases hbit : e.testBit w with
    | false =>
      have hz : e / 2 ^ w % 2 = 0 := by
        rw [Nat.testBit_to_div_mod] at hbit
        rcases Nat.mod_two_eq_zero_or_one (e / 2 ^ w) with h | h
        · exact h
        · simp [h] at hbit
      refine ⟨q, ?_⟩
      rw [if_neg Bool.false_ne_true, Nat.xor_zero, hq, hmod, hz]
      ring
    | true =>
      have ho : e / 2 ^ w % 2 = 1 := by
        rw [Nat.testBit_to_div_mod] at hbit
        simpa using hbit
      obtain ⟨qx, hqx⟩ := xPowMod_congr (m := m) (P := P) (m + w)
      refine ⟨q ^^^ qx, ?_⟩
      rw [if_pos rfl, clmul_xor_left,
        show (qRedW m P e w ^^^ xPowMod m P (m + w)) ^^^ (clmul q P ^^^ clmul qx P) =
          (qRedW m P e w ^^^ clmul q P) ^^^ (xPowMod m P (m + w) ^^^ clmul qx P) from
          xor_quad _ _ _ _,
        hq, hqx]
      have hlm : e % 2 ^ w * 2 ^ m < 2 ^ (m + w) := by
        calc e % 2 ^ w * 2 ^ m < 2 ^ w * 2 ^ m :=
              mul_lt_mul_of_pos_right hlow (by positivity)
          _ = 2 ^ (m + w) := by rw [← Nat.pow_add, Nat.add_comm]
      rw [Nat.xor_comm (e % 2 ^ w * 2 ^ m) (2 ^ (m + w)),
        show (2 : Nat) ^ (m + w) = 2 ^ (m + w) * 1 from (Nat.mul_one _).symm,
        xor_mul_two_pow_add hlm, hmod, ho]
      ring

theorem gf2Construction_isProduct {m P a b : Nat} (hm : 0 < m)
    (hP1 : 2 ^ m ≤ P) (hP2 : P < 2 ^ (m + 1)) :
    IsGF2Product m P a b (gf2ConstructionProduct m P a b) := by
  have hpos : 0 < 2 ^ m := Nat.pos_pow_of_pos m (by omega)
  constructor
  · exact xor_lt_two_pow (Nat.mod_lt _ hpos) (qRedW_lt hm hP1 hP2 _)
  · set e := clmul a b / 2 ^ m with he
    have hee : e % 2 ^ e = e := Nat.mod_eq_of_lt (Nat.lt_two_pow e)
    obtain ⟨q, hq⟩ := qRedW_congr (m := m) (P := P) (e := e) e
    rw [hee] at hq
    refine ⟨q, ?_⟩
    rw [gf2ConstructionProduct, qReduce, Nat.xor_assoc, hq]
    rw [Nat.xor_comm (clmul a b % 2 ^ m) (e * 2 ^ m), Nat.mul_comm e (2 ^ m),
      xor_mul_two_pow_add (Nat.mod_lt _ hpos)]
    have hdm := Nat.div_add_mod (clmul a b) (2 ^ m)
    rw [he]
    omega

theorem clmul_window {m P : Nat} (hP1 : 2 ^ m ≤ P) (hP2 : P < 2 ^ (m + 1)) :
    ∀ j q, 2 ^ j ≤ q → q < 2 ^ (j + 1) →
      2 ^ (m + j) ≤ clmul q P ∧ clmul q P < 2 ^ (m + j + 1) := by
  have hshift : ∀ j, 2 ^ (m + j) ≤ P <<< j ∧ P <<< j < 2 ^ (m + j + 1) := by
    intro j
    rw [Nat.shiftLeft_eq, Nat.pow_add, Nat.pow_succ, Nat.pow_add]
    constructor
    · exact Nat.mul_le_mul_right (2 ^ j) hP1
    · calc P * 2 ^ j < 2 ^ (m + 1) * 2 ^ j :=
            mul_lt_mul_of_pos_right hP2 (by positivity)
        _ = 2 ^ m * 2 * 2 ^ j := by rw [Nat.pow_succ]
        _ = 2 ^ m * 2 ^ j * 2 := by ring
  have hlowpart : ∀ j q, clmulW j q P < 2 ^ (m + j) := by
    intro j
    induction j with
    | zero =>
      intro q
      simpa [clmulW] using Nat.pos_pow_of_pos (m + 0) (Nat.zero_lt_succ 1)
    | succ j ih =>
      intro q
      rw [clmulW]
      have h1 : clmulW j q P < 2 ^ (m + j + 1) :=
        Nat.lt_of_lt_of_le (ih q) (Nat.pow_le_pow_right (by omega) (by omega))
      refine xor_lt_two_pow h1 ?_
      split
      · have := (hshift j).2
        calc P <<< j < 2 ^ (m + j + 1) := this
          _ = 2 ^ (m + (j + 1)) := by ring_nf
      · exact Nat.pos_pow_of_pos _ (by omega)
  intro j q hq1 hq2
  have hbit : q.testBit j = true := by
    rw [Nat.testBit_to_div_mod]
    have : q / 2 ^ j = 1 := by
      have h1 : 1 ≤ q / 2 ^ j := (Nat.le_div_iff_mul_le (by positivity)).2 (by omega)
      have h2 : q / 2 ^ j < 2 := by
        rw [Nat.div_lt_iff_lt_mul (by positivity)]
        rw [Nat.pow_succ] at hq2
        omega
      omega
    simp [this]
  rw [clmul_eq_clmulW hq2, clmulW, hbit, if_pos rfl]
  have hlow : clmulW j q P < 2 ^ (m + j) := hlowpart j q
  have hwin := hshift j
  have hxor := xor_high_add (s := m + j) (r := P <<< j - 2 ^ (m + j)) (y := clmulW j q P)
  have hPj : P <<< j = 2 ^ (m + j) + (P <<< j - 2 ^ (m + j)) := by omega
  have hr : P <<< j - 2 ^ (m + j) < 2 ^ (m + j) := by
    have := hwin.2
    rw [Nat.pow_succ] at this
    omega
  rw [Nat.xor_comm, hPj, hxor hr hlow]
  have hxlt : (P <<< j - 2 ^ (m + j)) ^^^ clmulW j q P < 2 ^ (m + j) :=
    xor_lt_two_pow hr hlow
  constructor
  · omega
  · rw [Nat.pow_succ]
    omega

theorem clmul_ge_of_ne_zero {m P q : Nat} (hq : q ≠ 0) (hP1 : 2 ^ m ≤ P)
    (hP2 : P < 2 ^ (m + 1)) : 2 ^ m ≤ clmul q P := by
  have h1 : 2 ^ q.log2 ≤ q := Nat.log2_self_le hq
  have h2 : q < 2 ^ (q.log2 + 1) := Nat.lt_log2_self
  have := (clmul_window hP1 hP2 q.log2 q h1 h2).1
  calc 2 ^ m ≤ 2 ^ (m + q.log2) := Nat.pow_le_pow_right (by omega) (by omega)
    _ ≤ clmul q P := this

theorem gf2Product_unique {m P a b r1 r2 : Nat} (hP1 : 2 ^ m ≤ P) (hP2 : P < 2 ^ (m + 1))
    (h1 : IsGF2Product m P a b r1) (h2 : IsGF2Product m P a b r2) : r1 = r2 := by
  obtain ⟨hr1, q1, hq1⟩ := h1
  obtain ⟨hr2, q2, hq2⟩ := h2
  have hx : r1 ^^^ r2 = clmul (q1 ^^^ q2) P := by
    rw [clmul_xor_left]
    have := hq1.trans hq2.symm
    calc r1 ^^^ r2 = (r1 ^^^ clmul q1 P) ^^^ (r2 ^^^ clmul q1 P) := by
          rw [xor_quad, Nat.xor_self, Nat.xor_zero]
      _ = (r2 ^^^ clmul q2 P) ^^^ (r2 ^^^ clmul q1 P) := by rw [this]
      _ = (r2 ^^^ r2) ^^^ (clmul q2 P ^^^ clmul q1 P) := by rw [xor_quad]
      _ = clmul q1 P ^^^ clmul q2 P := by
          rw [Nat.xor_self, Nat.zero_xor, Nat.xor_comm]
  by_cases hq : q1 ^^^ q2 = 0
  · have h0 : r1 ^^^ r2 = 0 := by
      rw [hx, hq, clmul_zero_left]
    exact Nat.xor_eq_zero.1 h0
  · exfalso
    have hge := clmul_ge_of_ne_zero hq hP1 hP2
    have hlt : r1 ^^^ r2 < 2 ^ m := xor_lt_two_pow hr1 hr2
    rw [hx] at hlt
    omega

/-- C10.  `GF2Multiplication` leaves the THRU registers `x` and `y` unchanged;
only the result register changes: with `plus_equal_prod = False` the RIGHT
register ends as the product `x * y` in GF(2^m) — the unique representative
below `2 ^ m` congruent to the carry-less product modulo the irreducible
polynomial — and with `plus_equal_prod = True` the THRU result register ends
as `result + x * y` (addition being xor in GF(2^m)). -/
theorem GF2Multiplication_correct (m P x y res : Nat) (hm : 0 < m)
    (hP1 : 2 ^ m ≤ P) (hP2 : P < 2 ^ (m + 1)) (hx : x < 2 ^ m) (hy : y < 2 ^ m) :
    GF2Multiplication m P false x y res = (x, y, gf2ConstructionProduct m P x y) ∧
    GF2Multiplication m P true x y res = (x, y, res ^^^ gf2ConstructionProduct m P x y) ∧
    IsGF2Product m P x y (gf2ConstructionProduct m P x y) ∧
    (∀ r, IsGF2Product m P x y r → r = gf2ConstructionProduct m P x y) := by
  have hip := gf2Construction_isProduct (a := x) (b := y) hm hP1 hP2
  exact ⟨rfl, rfl, hip, fun r hr => gf2Product_unique hP1 hP2 hr hip⟩

theorem GF2Multiplication_correct_witness :
    GF2Multiplication 3 11 false 5 3 6 = (5, 3, gf2ConstructionProduct 3 11 5 3) ∧
    GF2Multiplication 3 11 true 5 3 6 = (5, 3, 6 ^^^ gf2ConstructionProduct 3 11 5 3) ∧
    IsGF2Product 3 11 5 3 (gf2ConstructionProduct 3 11 5 3) ∧
    gf2ConstructionProduct 3 11 5 3 = 4 := by
  have h := GF2Multiplication_correct 3 11 5 3 6 (by decide) (by decide) (by decide)
    (by decide) (by decide)
  exact ⟨h.1, h.2.1, h.2.2.1, by decide⟩

end Qualtran
